import Mathlib

/-!
Verification development for the favfetch PNG codec and flatten pipeline
(`src/api/favfetch.js`).  Byte buffers (Node `Buffer`s) are modelled as
`List Nat`; writes into buffers apply `% 256`, matching `Uint8Array`
store semantics.  JavaScript floating-point numbers appearing in the
analyzer / compositor are modelled as exact rationals (`ℚ`).
-/

namespace Favfetch

/-- Big-endian 32-bit read of the first four bytes of a list
(`buf.readUInt32BE`); entries are masked to byte range as a `Buffer`
stores only bytes. -/
def u32be (l : List Nat) : Nat :=
  (l.getD 0 0 % 256) * 16777216 + (l.getD 1 0 % 256) * 65536 +
    (l.getD 2 0 % 256) * 256 + l.getD 3 0 % 256

/-- Big-endian 32-bit serialization (`buf.writeUInt32BE`). -/
def u32beBytes (n : Nat) : List Nat :=
  [n / 16777216 % 256, n / 65536 % 256, n / 256 % 256, n % 256]

theorem u32be_u32beBytes (n : Nat) (h : n < 4294967296) :
    u32be (u32beBytes n) = n := by
  simp only [u32be, u32beBytes, List.getD_cons_zero, List.getD_cons_succ]
  omega

theorem u32beBytes_length (n : Nat) : (u32beBytes n).length = 4 := rfl

theorem u32beBytes_lt (n : Nat) : ∀ b ∈ u32beBytes n, b < 256 := by
  intro b hb
  simp only [u32beBytes, List.mem_cons, List.not_mem_nil, or_false] at hb
  rcases hb with h | h | h | h <;> subst h <;> omega

/-- One round of the CRC-32 table construction:
`c & 1 ? 0xedb88320 ^ (c >>> 1) : c >>> 1`. -/
def crc8round (c : Nat) : Nat :=
  if c % 2 = 1 then 0xedb88320 ^^^ (c / 2) else c / 2

/-- Entry `i` of the 256-entry CRC table (8 rounds over the byte). -/
def crcEntry (i : Nat) : Nat := crc8round^[8] i

/-- One byte step of the CRC-32 loop:
`CRC_TABLE[(c ^ b) & 0xff] ^ (c >>> 8)`. -/
def crc32update (c b : Nat) : Nat := crcEntry ((c ^^^ b) % 256) ^^^ (c / 256)

/-- `crc32` over a byte list (initial value `0xffffffff`, final XOR
`0xffffffff`). -/
def crc32 (l : List Nat) : Nat := (l.foldl crc32update 0xffffffff) ^^^ 0xffffffff

/-- Chunk serializer `makeChunk`:
`length(4BE) ++ type(4) ++ data ++ crc32(type ++ data)(4BE)`. -/
def makeChunk (ty data : List Nat) : List Nat :=
  u32beBytes data.length ++ ty ++ data ++ u32beBytes (crc32 (ty ++ data))

/-- The eight PNG signature bytes. -/
def pngSig : List Nat := [137, 80, 78, 71, 13, 10, 26, 10]

/-- ASCII tag bytes for the chunk types the parser dispatches on. -/
def tyIHDR : List Nat := [73, 72, 68, 82]

def tyPLTE : List Nat := [80, 76, 84, 69]

def tyTRNS : List Nat := [116, 82, 78, 83]

def tyIDAT : List Nat := [73, 68, 65, 84]

def tyIEND : List Nat := [73, 69, 78, 68]

/-- Modelled from the spec: the DEFLATE/zlib compression backend
(`zlib.deflateSync`), an external library whose code is not part of this
repository.  The spec treats it as "the standard DEFLATE/zlib algorithm"
whose only relevant contract is that inflation is a total inverse of
deflation and that inflation of a non-zlib stream fails.  We model it as
an identity "stored" codec behind the standard two-byte zlib header. -/
def deflate (raw : List Nat) : List Nat := 120 :: 218 :: raw

/-- Modelled from the spec: the INFLATE side of the zlib backend
(`zlib.inflateSync`); fails (throws, i.e. `none`) on streams lacking the
zlib header — in particular on the empty stream. -/
def inflate : List Nat → Option (List Nat)
  | 120 :: 218 :: rest => some rest
  | _ => none

theorem inflate_deflate (raw : List Nat) : inflate (deflate raw) = some raw := rfl

/-- The nested Paeth predictor helper (`paeth(a, b, c)` inside
`parsePNG`): `p = a + b - c`, pick among a, b, c by minimal absolute
distance to `p`, ties preferring a, then b, then c. -/
def paeth (a b c : Nat) : Nat :=
  let p : Int := (a : Int) + (b : Int) - (c : Int)
  let pa := (p - (a : Int)).natAbs
  let pb := (p - (b : Int)).natAbs
  let pc := (p - (c : Int)).natAbs
  if pa ≤ pb ∧ pa ≤ pc then a else if pb ≤ pc then b else c

/-- Reconstruction of a single filtered byte, given the filter type, the
already-reconstructed prefix `acc` of the current line, and the previous
line.  Mirrors the per-byte body of the unfilter loops in `parsePNG`
(the copy into `curLine` is a `Buffer` write, hence the `% 256` mask on
the raw byte). -/
def reconByte (ft ch : Nat) (prev acc : List Nat) (x : Nat) : Nat :=
  let i := acc.length
  let a := if ch ≤ i then acc.getD (i - ch) 0 else 0
  let b := prev.getD i 0
  let c := if ch ≤ i then prev.getD (i - ch) 0 else 0
  if ft = 1 then (x % 256 + a) % 256
  else if ft = 2 then (x % 256 + b) % 256
  else if ft = 3 then (x % 256 + (a + b) / 2) % 256
  else if ft = 4 then (x % 256 + paeth a b c) % 256
  else x % 256

/-- Left-to-right unfilter loop over one scanline. -/
def unfilterGo (ft ch : Nat) (prev : List Nat) : List Nat → List Nat → List Nat
  | acc, [] => acc
  | acc, x :: rest => unfilterGo ft ch prev (acc ++ [reconByte ft ch prev acc x]) rest

/-- Unfilter one scanline of filtered bytes (filter type 0 leaves the
copied bytes unchanged). -/
def unfilterRow (ft ch : Nat) (prev filt : List Nat) : List Nat :=
  if ft = 0 then filt.map (· % 256) else unfilterGo ft ch prev [] filt

theorem unfilterGo_length (ft ch : Nat) (prev : List Nat) :
    ∀ (l acc : List Nat), (unfilterGo ft ch prev acc l).length = acc.length + l.length := by
  intro l
  induction l with
  | nil => intro acc; simp [unfilterGo]
  | cons x rest ih =>
      intro acc
      simp only [unfilterGo, ih, List.length_append, List.length_cons,
        List.length_nil]
      omega

theorem unfilterGo_stable (ft ch : Nat) (prev : List Nat) :
    ∀ (l acc : List Nat) (k : Nat), k < acc.length →
      (unfilterGo ft ch prev acc l).getD k 0 = acc.getD k 0 := by
  intro l
  induction l with
  | nil => intro acc k _; simp [unfilterGo]
  | cons x rest ih =>
      intro acc k hk
      simp only [unfilterGo]
      rw [ih _ k (by simp; omega)]
      exact List.getD_append _ _ _ _ hk

/-- Accumulator of the chunk-walking `while` loop in `parsePNG`:
the last IHDR/PLTE/tRNS data seen, the concatenated IDAT payloads, and
whether an IEND chunk was reached. -/
structure ChunkScan where
  ihdr : Option (List Nat)
  plte : Option (List Nat)
  trns : Option (List Nat)
  idat : List Nat
  ended : Bool
deriving DecidableEq

/-- Initial scan state. -/
def initScan : ChunkScan := ⟨none, none, none, [], false⟩

/-- Fuel-driven chunk walk over the bytes after the signature.  Each
iteration reads `length(4BE) ‖ type(4) ‖ data(length) ‖ crc(4)` and
dispatches on the 7-bit-masked type bytes (Node decodes chunk types with
the `'ascii'` codec, which strips the high bit).  The walk stops (`while`
`break`) when fewer than 8 header bytes remain or the declared data+CRC
runs past the end, and stops collecting at the first IEND.  An IHDR chunk
with fewer than 8 data bytes makes the whole parse throw in the source
(`readUInt32BE` out of range), caught as a decode failure: that is the
`none` result.  Fuel is the remaining byte count; each step consumes at
least 12 bytes, so fuel never runs out when started at `buf.length`. -/
def walkChunksFuel : Nat → List Nat → ChunkScan → Option ChunkScan
  | 0, _, acc => some acc
  | fuel + 1, buf, acc =>
    if buf.length < 8 then some acc
    else if buf.length < 12 + u32be (buf.take 4) then some acc
    else if ((buf.drop 4).take 4).map (· % 128) = tyIHDR then
      if ((buf.drop 8).take (u32be (buf.take 4))).length < 8 then none
      else
        walkChunksFuel fuel (buf.drop (12 + u32be (buf.take 4)))
          { acc with ihdr := some ((buf.drop 8).take (u32be (buf.take 4))) }
    else if ((buf.drop 4).take 4).map (· % 128) = tyPLTE then
      walkChunksFuel fuel (buf.drop (12 + u32be (buf.take 4)))
        { acc with plte := some ((buf.drop 8).take (u32be (buf.take 4))) }
    else if ((buf.drop 4).take 4).map (· % 128) = tyTRNS then
      walkChunksFuel fuel (buf.drop (12 + u32be (buf.take 4)))
        { acc with trns := some ((buf.drop 8).take (u32be (buf.take 4))) }
    else if ((buf.drop 4).take 4).map (· % 128) = tyIDAT then
      walkChunksFuel fuel (buf.drop (12 + u32be (buf.take 4)))
        { acc with idat := acc.idat ++ (buf.drop 8).take (u32be (buf.take 4)) }
    else if ((buf.drop 4).take 4).map (· % 128) = tyIEND then
      some { acc with ended := true }
    else walkChunksFuel fuel (buf.drop (12 + u32be (buf.take 4))) acc

/-- The chunk walk of `parsePNG`, with enough fuel for the whole buffer. -/
def walkChunks (buf : List Nat) (acc : ChunkScan) : Option ChunkScan :=
  walkChunksFuel buf.length buf acc

/-- Channels per pixel by color type (`switch (ihdr.colorType)`);
`none` on an unsupported color type. -/
def channelsOf : Nat → Option Nat
  | 6 => some 4
  | 2 => some 3
  | 0 => some 1
  | 3 => some 1
  | _ => none

/-- Expand `w` pixels of a reconstructed scanline into RGBA bytes,
following the per-color-type conversion loop of `parsePNG`.  Indexed
pixels fail on a missing palette or an index whose palette triple runs
past the palette end; their alpha comes from the tRNS table when the
index is within it, else 255. -/
def expandPixels (ct : Nat) (plte trns : Option (List Nat)) :
    Nat → List Nat → Option (List Nat)
  | 0, _ => some []
  | x + 1, cur =>
    match ct with
    | 6 =>
      match expandPixels 6 plte trns x (cur.drop 4) with
      | none => none
      | some rest => some (cur.take 4 ++ rest)
    | 2 =>
      match expandPixels 2 plte trns x (cur.drop 3) with
      | none => none
      | some rest =>
        some ([cur.getD 0 0, cur.getD 1 0, cur.getD 2 0, 255] ++ rest)
    | 0 =>
      match expandPixels 0 plte trns x (cur.drop 1) with
      | none => none
      | some rest =>
        some ([cur.getD 0 0, cur.getD 0 0, cur.getD 0 0, 255] ++ rest)
    | 3 =>
      match plte with
      | none => none
      | some pal =>
        let idx := cur.getD 0 0
        if pal.length ≤ idx * 3 + 2 then none
        else
          let alpha :=
            match trns with
            | some t => if idx < t.length then t.getD idx 0 else 255
            | none => 255
          match expandPixels 3 plte trns x (cur.drop 1) with
          | none => none
          | some rest =>
            some ([pal.getD (idx * 3) 0 % 256, pal.getD (idx * 3 + 1) 0 % 256,
              pal.getD (idx * 3 + 2) 0 % 256, alpha % 256] ++ rest)
    | _ => none

/-- The per-scanline decode loop of `parsePNG`: for each of the `h`
rows, read one filter-type byte, require a full row of filtered bytes,
reject unknown filter types, unfilter against the previous reconstructed
row, and expand to RGBA. -/
def decodeRows (ct ch w : Nat) (plte trns : Option (List Nat)) :
    Nat → List Nat → List Nat → Option (List Nat)
  | 0, _, _ => some []
  | h + 1, raw, prev =>
    match raw with
    | [] => none
    | ft :: rest =>
      if rest.length < w * ch then none
      else if 4 < ft then none
      else
        let cur := unfilterRow ft ch prev (rest.take (w * ch))
        match expandPixels ct plte trns w cur with
        | none => none
        | some rowRGBA =>
          match decodeRows ct ch w plte trns h (rest.drop (w * ch)) cur with
          | none => none
          | some more => some (rowRGBA ++ more)

/-- A successfully decoded PNG: width, height and the RGBA buffer. -/
structure ParsedPNG where
  width : Nat
  height : Nat
  data : List Nat
deriving DecidableEq

/-- The decoder `parsePNG`: signature check, chunk walk, IHDR field
validation (reads of fields beyond the stored IHDR data are `undefined`
in the source and fail the equality checks, modelled by the out-of-range
`getD` sentinel 999), IDAT inflation, then the row decode loop.  Any
failure yields `none`, mirroring the `try/catch` returning `null`. -/
def parsePNG (buf : List Nat) : Option ParsedPNG :=
  if buf.length < 8 ∨ buf.take 8 ≠ pngSig then none
  else
    match walkChunks (buf.drop 8) initScan with
    | none => none
    | some scan =>
      match scan.ihdr with
      | none => none
      | some d =>
        if scan.ended = false then none
        else if d.getD 10 999 ≠ 0 ∨ d.getD 11 999 ≠ 0 then none
        else if d.getD 8 999 ≠ 8 then none
        else if d.getD 12 999 ≠ 0 then none
        else
          match inflate scan.idat with
          | none => none
          | some raw =>
            match channelsOf (d.getD 9 999) with
            | none => none
            | some ch =>
              let w := u32be (d.take 4)
              let h := u32be ((d.drop 4).take 4)
              match decodeRows (d.getD 9 999) ch w scan.plte scan.trns h raw
                  (List.replicate (w * ch) 0) with
              | none => none
              | some out => some ⟨w, h, out⟩

/-- Pad a list with zeros up to length `n` (a freshly `Buffer.alloc`ed
row is zero-filled; `copy` fills only what the source provides). -/
def padTo (n : Nat) (l : List Nat) : List Nat := l ++ List.replicate (n - l.length) 0

/-- The raw scanline image built by `encodePNG`: for each of `h` rows, a
zero filter byte followed by the `4*w` RGBA bytes of that row. -/
def buildRaw (w : Nat) : Nat → List Nat → List Nat
  | 0, _ => []
  | h + 1, rgba =>
    (0 :: padTo (4 * w) (rgba.take (4 * w))) ++ buildRaw w h (rgba.drop (4 * w))

/-- The 13 IHDR data bytes written by `encodePNG`: width, height,
bit depth 8, color type 6 (RGBA), compression 0, filter 0, interlace 0. -/
def ihdrData (w h : Nat) : List Nat := u32beBytes w ++ u32beBytes h ++ [8, 6, 0, 0, 0]

/-- The encoder `encodePNG`: signature, IHDR chunk, one IDAT chunk with
the deflated raw scanlines, and the IEND chunk. -/
def encodePNG (rgba : List Nat) (w h : Nat) : List Nat :=
  pngSig ++ makeChunk tyIHDR (ihdrData w h) ++
    makeChunk tyIDAT (deflate (buildRaw w h rgba)) ++ makeChunk tyIEND []

/-- Result of `analyzeRGBA`. -/
structure AnalysisResult where
  transparentRatio : ℚ
  avgLuma : ℚ
deriving DecidableEq

/-- Luminance of one pixel: `0.2126*r + 0.7152*g + 0.0722*b`, with the
IEEE doubles of the source modelled as exact rationals. -/
def lum (r g b : Nat) : ℚ :=
  (2126 : ℚ) / 10000 * r + (7152 : ℚ) / 10000 * g + (722 : ℚ) / 10000 * b

/-- The accumulation loop of `analyzeRGBA`, four bytes per pixel:
(transparent count, opaque count, luminance sum).  A trailing fragment of
1–3 bytes would make the source read `undefined` and poison the float
sums with NaN; that floating-point corner is outside the byte-exact
model (all callers pass buffers of length `width*height*4`). -/
def analyzeGo : List Nat → Nat × Nat × ℚ
  | r :: g :: b :: a :: rest =>
    let s := analyzeGo rest
    if a < 128 then (s.1 + 1, s.2.1, s.2.2)
    else (s.1, s.2.1 + 1, s.2.2 + lum r g b)
  | _ => (0, 0, 0)

/-- The analyzer `analyzeRGBA`: transparency ratio over all pixels
(`totalPixels || 1` guards the empty buffer) and average luminance of
the non-transparent pixels, defaulting to 255 when none exist. -/
def analyzeRGBA (buf : List Nat) : AnalysisResult :=
  let s := analyzeGo buf
  let totalPixels : ℚ := (buf.length : ℚ) / 4
  { transparentRatio := (s.1 : ℚ) / (if totalPixels = 0 then 1 else totalPixels)
    avgLuma := if s.2.1 = 0 then 255 else s.2.2 / (s.2.1 : ℚ) }

/-- One hex digit as consumed by `parseInt(..., 16)` on the well-formed
`'#rrggbb'` strings the pipeline produces. -/
def hexDigit (c : Char) : Nat :=
  if '0' ≤ c ∧ c ≤ '9' then c.toNat - 48
  else if 'a' ≤ c ∧ c ≤ 'f' then c.toNat - 87
  else if 'A' ≤ c ∧ c ≤ 'F' then c.toNat - 55
  else 0

/-- Parse `'#rrggbb'` into the three background channel values
(`parseInt(bgHex.slice(1,3),16)` and friends). -/
def parseHexColor (s : String) : Nat × Nat × Nat :=
  match s.data with
  | _ :: a :: b :: c :: d :: e :: f :: _ =>
    (16 * hexDigit a + hexDigit b, 16 * hexDigit c + hexDigit d,
      16 * hexDigit e + hexDigit f)
  | _ => (0, 0, 0)

/-- One composited channel, stored as a byte:
`Math.round(src * a + bg * (1 - a))` with `a = al / 255`.  For a byte
alpha `al ≤ 255` the exact-rational value of that round-half-up is
`⌊(2*(src*al + bg*(255-al)) + 255) / 510⌋`, which this computes in `Nat`
so that concrete pipeline runs evaluate inside the kernel; the trailing
`% 256` is the `Uint8Array` store conversion. -/
def compositeChannel (src bg al : Nat) : Nat :=
  ((2 * (src * al + bg * (255 - al)) + 255) / 510) % 256

/-- The background fill of `flattenRGBA`: `n` pixels of
`(bgR, bgG, bgB, 255)`. -/
def fillBg : Nat → Nat → Nat → Nat → List Nat
  | 0, _, _, _ => []
  | n + 1, r, g, b => r % 256 :: g % 256 :: b % 256 :: 255 :: fillBg n r g b

/-- One destination pixel of the scaled draw loop in the primary
`flattenRGBA` (lines 329–387): nearest-neighbor source lookup with
clamping, alpha composite over the background, alpha forced to 255.
When the source buffer is shorter than `width*height*4` the source reads
are `undefined` and the NaN-poisoned rounds store 0.  `List.set` ignores
out-of-range indices exactly like a `Buffer` write. -/
def drawPixel (rgba : List Nat) (w h bgR bgG bgB offX offY : Nat)
    (out : List Nat) (y x : Nat) : List Nat :=
  let sX := min (5 * x / 4) (w - 1)
  let sY := min (5 * y / 4) (h - 1)
  let srcIdx := (sY * w + sX) * 4
  let dstIdx := ((y + offY) * w + (x + offX)) * 4
  let vals : Nat × Nat × Nat :=
    if srcIdx + 4 ≤ rgba.length then
      let al := rgba.getD (srcIdx + 3) 0
      (compositeChannel (rgba.getD srcIdx 0) bgR al,
        compositeChannel (rgba.getD (srcIdx + 1) 0) bgG al,
        compositeChannel (rgba.getD (srcIdx + 2) 0) bgB al)
    else (0, 0, 0)
  ((((out.set dstIdx vals.1).set (dstIdx + 1) vals.2.1).set
    (dstIdx + 2) vals.2.2).set (dstIdx + 3) 255)

/-- The primary compositor `flattenRGBA` (scale to 80% and center,
lines 329–387): fill a `width*height*4` buffer with the opaque
background, then draw the nearest-neighbor-scaled image centered.  The
source's `width * 0.8` / `x / 0.8` double arithmetic is modelled exactly
as the rationals `4*w/5` / `5*x/4`. -/
def flattenRGBA (rgba : List Nat) (w h : Nat) (bgHex : String) : List Nat :=
  let bg := parseHexColor bgHex
  let scaledW := 4 * w / 5
  let scaledH := 4 * h / 5
  let offX := (w - scaledW) / 2
  let offY := (h - scaledH) / 2
  (List.range scaledH).foldl
    (fun o y =>
      (List.range scaledW).foldl
        (fun o2 x => drawPixel rgba w h bg.1 bg.2.1 bg.2.2 offX offY o2 y x) o)
    (fillBg (w * h) bg.1 bg.2.1 bg.2.2)

/-- The per-pixel loop of the full-bleed `flattenRGBA` variant
(lines 938–955): composite every pixel over the background in place; a
trailing 1–3 byte fragment gets NaN-poisoned rounds stored as 0. -/
def flattenFullGo (bgR bgG bgB : Nat) : List Nat → List Nat
  | r :: g :: b :: a :: rest =>
    compositeChannel r bgR a :: compositeChannel g bgG a ::
      compositeChannel b bgB a :: 255 :: flattenFullGo bgR bgG bgB rest
  | rest => rest.map (fun _ => 0)

/-- The full-bleed compositor variant of `flattenRGBA` (second
implementation, lines 938–955): same-length output, every pixel
composited over the background, alpha forced to 255. -/
def flattenRGBAFull (rgba : List Nat) (bgHex : String) : List Nat :=
  let bg := parseHexColor bgHex
  flattenFullGo bg.1 bg.2.1 bg.2.2 rgba

/-- The core processing step of the handler (lines 549–594): on declared
media type `image/png`, decode; on success analyze; when the transparent
ratio reaches the inclusive 0.5 threshold, flatten over white
(`avg_luma < 128`) or `#1f1f1f` and re-encode as PNG; on any other path
pass the original bytes and media type through unchanged. -/
def process (bytes : List Nat) (media : String) : List Nat × String :=
  if media = "image/png" then
    match parsePNG bytes with
    | some parsed =>
      let res := analyzeRGBA parsed.data
      if (1 : ℚ) / 2 ≤ res.transparentRatio then
        let bgHex := if res.avgLuma < 128 then "#ffffff" else "#1f1f1f"
        (encodePNG (flattenRGBA parsed.data parsed.width parsed.height bgHex)
          parsed.width parsed.height, "image/png")
      else (bytes, media)
    | none => (bytes, media)
  else (bytes, media)

section Lemmas

theorem mask_eq_self {m : Nat} {l : List Nat} (h : ∀ b ∈ l, b < m) :
    l.map (· % m) = l := by
  induction l with
  | nil => rfl
  | cons x rest ih =>
      simp only [List.map_cons, List.cons.injEq]
      refine ⟨Nat.mod_eq_of_lt (h x (by simp)), ih fun b hb => h b (by simp [hb])⟩

theorem unfilterRow_length (ft ch : Nat) (prev filt : List Nat) :
    (unfilterRow ft ch prev filt).length = filt.length := by
  unfold unfilterRow
  split
  · simp
  · simp [unfilterGo_length]

theorem unfilterGo_take (ft ch : Nat) (prev : List Nat) :
    ∀ (l acc : List Nat), (unfilterGo ft ch prev acc l).take acc.length = acc := by
  intro l
  induction l with
  | nil => intro acc; simp [unfilterGo]
  | cons x rest ih =>
      intro acc
      simp only [unfilterGo]
      have h1 := ih (acc ++ [reconByte ft ch prev acc x])
      have h2 : (unfilterGo ft ch prev (acc ++ [reconByte ft ch prev acc x]) rest).take
          acc.length = ((unfilterGo ft ch prev (acc ++ [reconByte ft ch prev acc x])
            rest).take (acc ++ [reconByte ft ch prev acc x]).length).take acc.length := by
        rw [List.take_take]
        congr 1
        simp only [List.length_append, List.length_cons, List.length_nil]
        omega
      rw [h2, h1, List.take_left]

theorem unfilterGo_getD (ft ch : Nat) (prev : List Nat) :
    ∀ (l acc : List Nat) (i : Nat), acc.length ≤ i → i < acc.length + l.length →
      (unfilterGo ft ch prev acc l).getD i 0 =
        reconByte ft ch prev ((unfilterGo ft ch prev acc l).take i)
          (l.getD (i - acc.length) 0) := by
  intro l
  induction l with
  | nil => intro acc i h1 h2; simp at h2; omega
  | cons x rest ih =>
      intro acc i h1 h2
      simp only [unfilterGo]
      rcases Nat.eq_or_lt_of_le h1 with he | hlt
      · have hstab := unfilterGo_stable ft ch prev rest
          (acc ++ [reconByte ft ch prev acc x]) i (by simp; omega)
        have htake : (unfilterGo ft ch prev (acc ++ [reconByte ft ch prev acc x])
            rest).take i = acc := by
          rw [← he]
          have := unfilterGo_take ft ch prev rest (acc ++ [reconByte ft ch prev acc x])
          have h2' : acc.length = min acc.length (acc ++ [reconByte ft ch prev acc x]).length := by
            simp only [List.length_append, List.length_cons, List.length_nil]
            omega
          calc (unfilterGo ft ch prev (acc ++ [reconByte ft ch prev acc x]) rest).take
                acc.length
              = ((unfilterGo ft ch prev (acc ++ [reconByte ft ch prev acc x]) rest).take
                (acc ++ [reconByte ft ch prev acc x]).length).take acc.length := by
                rw [List.take_take, ← h2']
            _ = acc := by rw [this, List.take_left]
        rw [hstab, htake, ← he]
        simp only [Nat.sub_self, List.getD_cons_zero]
        rw [List.getD_append_right _ _ _ _ (le_refl acc.length)]
        simp
      · have ih' := ih (acc ++ [reconByte ft ch prev acc x]) i
          (by simp only [List.length_append, List.length_cons, List.length_nil]; omega)
          (by simp only [List.length_append, List.length_cons, List.length_nil,
            List.length_cons] at h2 ⊢; omega)
        rw [ih']
        congr 1
        have : i - acc.length = (i - (acc ++ [reconByte ft ch prev acc x]).length) + 1 := by
          simp only [List.length_append, List.length_cons, List.length_nil]
          omega
        rw [this]
        simp

end Lemmas

/-- Claim C1: the core pipeline is a total function returning a
(bytes, media type) pair, and whenever the declared media type is not
`image/png` or decoding fails, it returns exactly the original bytes
with the original media type. -/
theorem process_passthrough (bytes : List Nat) (media : String)
    (h : media ≠ "image/png" ∨ parsePNG bytes = none) :
    process bytes media = (bytes, media) := by
  rcases h with h | h
  · simp [process, h]
  · by_cases hm : media = "image/png"
    · simp [process, hm, h]
    · simp [process, hm]

/-- Witness for C1 at a non-PNG media type and at undecodable bytes. -/
theorem process_passthrough_witness :
    process [1, 2, 3] "image/jpeg" = ([1, 2, 3], "image/jpeg") ∧
    process [1, 2, 3] "image/png" = ([1, 2, 3], "image/png") :=
  ⟨process_passthrough [1, 2, 3] "image/jpeg" (Or.inl (by decide)),
   process_passthrough [1, 2, 3] "image/png" (Or.inr (by decide))⟩

/-- Claim C7: the Paeth predictor returns one of a, b, c, minimizes the
absolute distance to `p = a + b - c` with ties preferring a, then b,
then c (equivalently, the stated conditional), and the type-4 unfilter
reconstructs byte `i` as `(filt[i] + paeth a b c) mod 256` where a, b, c
are the already-reconstructed left / above / above-left neighbors at
distance `bytesPerPixel`. -/
theorem paeth_spec (a b c ch i : Nat) (prev filt : List Nat)
    (hch : 0 < ch) (hi : i < filt.length) :
    (paeth a b c = a ∨ paeth a b c = b ∨ paeth a b c = c) ∧
    (((a : Int) + b - c) - paeth a b c).natAbs ≤ (((a : Int) + b - c) - a).natAbs ∧
    (((a : Int) + b - c) - paeth a b c).natAbs ≤ (((a : Int) + b - c) - b).natAbs ∧
    (((a : Int) + b - c) - paeth a b c).natAbs ≤ (((a : Int) + b - c) - c).natAbs ∧
    (paeth a b c =
      if (((a : Int) + b - c) - a).natAbs ≤ (((a : Int) + b - c) - b).natAbs ∧
          (((a : Int) + b - c) - a).natAbs ≤ (((a : Int) + b - c) - c).natAbs then a
      else if (((a : Int) + b - c) - b).natAbs ≤ (((a : Int) + b - c) - c).natAbs then b
      else c) ∧
    ((unfilterRow 4 ch prev filt).getD i 0 =
      (filt.getD i 0 +
        paeth (if ch ≤ i then (unfilterRow 4 ch prev filt).getD (i - ch) 0 else 0)
          (prev.getD i 0)
          (if ch ≤ i then prev.getD (i - ch) 0 else 0)) % 256) := by
  refine ⟨?_, ?_, ?_, ?_, ?_, ?_⟩
  · simp only [paeth]; split_ifs <;> simp
  · simp only [paeth]; split_ifs <;> omega
  · simp only [paeth]; split_ifs <;> omega
  · simp only [paeth]; split_ifs <;> omega
  · rfl
  · have hrow : unfilterRow 4 ch prev filt = unfilterGo 4 ch prev [] filt := by
      unfold unfilterRow; simp
    have hlen : (unfilterGo 4 ch prev [] filt).length = filt.length := by
      rw [unfilterGo_length]; simp
    have hmain := unfilterGo_getD 4 ch prev filt [] i (by simp) (by simpa using hi)
    rw [hrow, hmain]
    have htl : ((unfilterGo 4 ch prev [] filt).take i).length = i := by
      rw [List.length_take, hlen]; omega
    have hgd : ∀ j, j < i →
        ((unfilterGo 4 ch prev [] filt).take i).getD j 0 =
          (unfilterGo 4 ch prev [] filt).getD j 0 := by
      intro j hj
      simp only [List.getD, List.get?_eq_getElem?, List.getElem?_take_of_lt hj]
    simp only [reconByte, htl, List.length_nil, Nat.sub_zero]
    norm_num
    by_cases hc : ch ≤ i
    · have hg := hgd (i - ch) (by omega)
      simp only [List.getD, List.get?_eq_getElem?] at hg
      rw [hg]
    · simp only [if_neg hc]

/-- Witness for C7 at concrete bytes and a concrete scanline. -/
theorem paeth_spec_witness :
    (0 < 2 ∧ (3 : Nat) < [9, 8, 7, 6].length) ∧
    ((unfilterRow 4 2 [1, 2, 3, 4] [9, 8, 7, 6]).getD 3 0 =
      ([9, 8, 7, 6].getD 3 0 +
        paeth (if 2 ≤ 3 then (unfilterRow 4 2 [1, 2, 3, 4] [9, 8, 7, 6]).getD (3 - 2) 0 else 0)
          ([1, 2, 3, 4].getD 3 0)
          (if 2 ≤ 3 then [1, 2, 3, 4].getD (3 - 2) 0 else 0)) % 256) :=
  ⟨by decide, (paeth_spec 200 100 50 2 3 [1, 2, 3, 4] [9, 8, 7, 6]
    (by decide) (by decide)).2.2.2.2.2⟩

section FlattenLemmas

theorem foldl_preserves {α β : Type} (P : α → Prop) (f : α → β → α)
    (hf : ∀ a x, P a → P (f a x)) :
    ∀ (l : List β) (a : α), P a → P (l.foldl f a) := by
  intro l
  induction l with
  | nil => intro a ha; exact ha
  | cons x rest ih => intro a ha; exact ih _ (hf a x ha)

theorem getD_set_ne (l : List Nat) (j v i d : Nat) (h : j ≠ i) :
    (l.set j v).getD i d = l.getD i d := by
  simp [List.getD, List.getElem?_set_ne h]

theorem getD_set_self (l : List Nat) (j v d : Nat) (h : j < l.length) :
    (l.set j v).getD j d = v := by
  simp [List.getD, List.getElem?_set_self, h]

theorem fillBg_length (r g b : Nat) : ∀ n, (fillBg n r g b).length = 4 * n := by
  intro n
  induction n with
  | zero => rfl
  | succ k ih =>
      simp only [fillBg, List.length_cons, ih]
      omega

theorem fillBg_alpha (r g b : Nat) :
    ∀ n i, i < 4 * n → i % 4 = 3 → (fillBg n r g b).getD i 0 = 255 := by
  intro n
  induction n with
  | zero => intro i h1 _; omega
  | succ k ih =>
      intro i h1 h2
      rcases i with _ | _ | _ | _ | j
      · omega
      · omega
      · omega
      · simp [fillBg]
      · simp only [fillBg, List.getD_cons_succ]
        exact ih j (by omega) (by omega)

theorem set4_preserves (out : List Nat) (d v0 v1 v2 n : Nat)
    (hlen : out.length = n) (hd4 : d % 4 = 0)
    (halpha : ∀ i, i < n → i % 4 = 3 → out.getD i 0 = 255) :
    ((((out.set d v0).set (d + 1) v1).set (d + 2) v2).set (d + 3) 255).length = n ∧
    ∀ i, i < n → i % 4 = 3 →
      ((((out.set d v0).set (d + 1) v1).set (d + 2) v2).set (d + 3) 255).getD i 0 = 255 := by
  constructor
  · simp [List.length_set, hlen]
  · intro i hi h3
    by_cases he : d + 3 = i
    · rw [he, getD_set_self]
      simp only [List.length_set, hlen]
      omega
    · rw [getD_set_ne _ _ _ _ _ he, getD_set_ne _ _ _ _ _ (by omega),
        getD_set_ne _ _ _ _ _ (by omega), getD_set_ne _ _ _ _ _ (by omega)]
      exact halpha i hi h3

theorem drawPixel_preserves (rgba : List Nat) (w h bgR bgG bgB offX offY n : Nat)
    (out : List Nat) (y x : Nat)
    (hlen : out.length = n)
    (halpha : ∀ i, i < n → i % 4 = 3 → out.getD i 0 = 255) :
    (drawPixel rgba w h bgR bgG bgB offX offY out y x).length = n ∧
    ∀ i, i < n → i % 4 = 3 →
      (drawPixel rgba w h bgR bgG bgB offX offY out y x).getD i 0 = 255 := by
  unfold drawPixel
  exact set4_preserves out _ _ _ _ n hlen (by omega) halpha

theorem flattenFullGo_spec (bgR bgG bgB : Nat) : ∀ (l : List Nat),
    (flattenFullGo bgR bgG bgB l).length = l.length ∧
    ∀ i, i < l.length → i % 4 = 3 → (flattenFullGo bgR bgG bgB l).getD i 0 = 255
  | r :: g :: b :: a :: rest => by
      have ih := flattenFullGo_spec bgR bgG bgB rest
      constructor
      · simp only [flattenFullGo, List.length_cons, ih.1]
      · intro i h1 h2
        rcases i with _ | _ | _ | _ | j
        · omega
        · omega
        · omega
        · simp [flattenFullGo]
        · simp only [flattenFullGo, List.getD_cons_succ]
          refine ih.2 j ?_ (by omega)
          simp only [List.length_cons] at h1
          omega
  | [] => by constructor <;> simp [flattenFullGo]
  | [r] => by
      constructor
      · simp [flattenFullGo]
      · intro i h1 h2
        simp only [List.length_cons, List.length_nil] at h1
        omega
  | [r, g] => by
      constructor
      · simp [flattenFullGo]
      · intro i h1 h2
        simp only [List.length_cons, List.length_nil] at h1
        omega
  | [r, g, b] => by
      constructor
      · simp [flattenFullGo]
      · intro i h1 h2
        simp only [List.length_cons, List.length_nil] at h1
        omega

end FlattenLemmas

/-- Claim C5: both compositor variants return a fully opaque buffer —
the primary scaled variant a buffer of exactly `width*height*4` bytes,
the full-bleed variant one of the input's length — with every pixel's
alpha byte (index ≡ 3 mod 4) equal to 255, for every input buffer,
dimensions and background color. -/
theorem compositor_opacity (rgba : List Nat) (w h : Nat) (bgHex : String) :
    (flattenRGBA rgba w h bgHex).length = w * h * 4 ∧
    (∀ i, i < w * h * 4 → i % 4 = 3 → (flattenRGBA rgba w h bgHex).getD i 0 = 255) ∧
    (flattenRGBAFull rgba bgHex).length = rgba.length ∧
    (∀ i, i < rgba.length → i % 4 = 3 → (flattenRGBAFull rgba bgHex).getD i 0 = 255) := by
  have hfull := flattenFullGo_spec (parseHexColor bgHex).1 (parseHexColor bgHex).2.1
    (parseHexColor bgHex).2.2 rgba
  have hmain : (flattenRGBA rgba w h bgHex).length = w * h * 4 ∧
      ∀ i, i < w * h * 4 → i % 4 = 3 → (flattenRGBA rgba w h bgHex).getD i 0 = 255 := by
    unfold flattenRGBA
    refine foldl_preserves
      (fun l : List Nat => l.length = w * h * 4 ∧
        ∀ i, i < w * h * 4 → i % 4 = 3 → l.getD i 0 = 255) _ ?_ _ _ ?_
    · intro o y ho
      refine foldl_preserves
        (fun l : List Nat => l.length = w * h * 4 ∧
          ∀ i, i < w * h * 4 → i % 4 = 3 → l.getD i 0 = 255) _ ?_ _ o ho
      intro o2 x ho2
      exact drawPixel_preserves rgba w h _ _ _ _ _ _ o2 y x ho2.1 ho2.2
    · constructor
      · rw [fillBg_length]; ring
      · intro i h1 h2
        exact fillBg_alpha _ _ _ (w * h) i (by omega) h2
  exact ⟨hmain.1, hmain.2, hfull.1, hfull.2⟩

/-- Witness for C5 at a concrete 1×1 buffer and background. -/
theorem compositor_opacity_witness :
    (flattenRGBA [1, 2, 3, 4] 1 1 "#ffffff").length = 1 * 1 * 4 ∧
    (flattenRGBA [1, 2, 3, 4] 1 1 "#ffffff").getD 3 0 = 255 ∧
    (flattenRGBAFull [1, 2, 3, 4] "#ffffff").length = [1, 2, 3, 4].length ∧
    (flattenRGBAFull [1, 2, 3, 4] "#ffffff").getD 3 0 = 255 :=
  ⟨(compositor_opacity [1, 2, 3, 4] 1 1 "#ffffff").1,
   (compositor_opacity [1, 2, 3, 4] 1 1 "#ffffff").2.1 3 (by decide) (by decide),
   (compositor_opacity [1, 2, 3, 4] 1 1 "#ffffff").2.2.1,
   (compositor_opacity [1, 2, 3, 4] 1 1 "#ffffff").2.2.2 3 (by decide) (by decide)⟩

section AnalyzerLemmas

/-- The pixel groups of an RGBA buffer (four bytes per pixel), used to
state the analyzer's specification. -/
def pixelsOf : List Nat → List (Nat × Nat × Nat × Nat)
  | r :: g :: b :: a :: rest => (r, g, b, a) :: pixelsOf rest
  | _ => []

theorem analyzeGo_eq : ∀ (l : List Nat),
    analyzeGo l =
      (((pixelsOf l).filter fun p => decide (p.2.2.2 < 128)).length,
       ((pixelsOf l).filter fun p => ! decide (p.2.2.2 < 128)).length,
       (((pixelsOf l).filter fun p => ! decide (p.2.2.2 < 128)).map
         fun p => lum p.1 p.2.1 p.2.2.1).sum)
  | r :: g :: b :: a :: rest => by
      have ih := analyzeGo_eq rest
      simp only [analyzeGo, pixelsOf, ih]
      by_cases ha : a < 128
      · rw [if_pos ha, List.filter_cons_of_pos (by simp [ha]),
          List.filter_cons_of_neg (by simp [ha])]
        rw [List.length_cons]
      · rw [if_neg ha, List.filter_cons_of_neg (by simp [ha]),
          List.filter_cons_of_pos (by simp [ha])]
        rw [List.length_cons, List.map_cons, List.sum_cons]
        exact congrArg (fun t => (_, _, t)) (add_comm _ _)
  | [] => rfl
  | [r] => rfl
  | [r, g] => rfl
  | [r, g, b] => rfl

theorem pixelsOf_mem : ∀ (l : List Nat) (p : Nat × Nat × Nat × Nat),
    p ∈ pixelsOf l → p.1 ∈ l ∧ p.2.1 ∈ l ∧ p.2.2.1 ∈ l ∧ p.2.2.2 ∈ l
  | r :: g :: b :: a :: rest => by
      intro p hp
      simp only [pixelsOf, List.mem_cons] at hp
      rcases hp with hp | hp
      · subst hp; simp
      · have h4 := pixelsOf_mem rest p hp
        exact ⟨by simp [List.mem_cons, h4.1], by simp [List.mem_cons, h4.2.1],
          by simp [List.mem_cons, h4.2.2.1], by simp [List.mem_cons, h4.2.2.2]⟩
  | [] => by intro p hp; simp [pixelsOf] at hp
  | [r] => by intro p hp; simp [pixelsOf] at hp
  | [r, g] => by intro p hp; simp [pixelsOf] at hp
  | [r, g, b] => by intro p hp; simp [pixelsOf] at hp

theorem pixelsOf_length : ∀ (l : List Nat), l.length % 4 = 0 →
    l.length = 4 * (pixelsOf l).length
  | r :: g :: b :: a :: rest => by
      intro h
      simp only [List.length_cons] at h
      have := pixelsOf_length rest (by omega)
      simp only [pixelsOf, List.length_cons]
      omega
  | [] => by intro h; rfl
  | [r] => by intro h; simp at h
  | [r, g] => by intro h; simp at h
  | [r, g, b] => by intro h; simp at h

theorem lum_nonneg (r g b : Nat) : 0 ≤ lum r g b := by
  unfold lum
  positivity

theorem lum_le (r g b : Nat) (hr : r < 256) (hg : g < 256) (hb : b < 256) :
    lum r g b ≤ 255 := by
  unfold lum
  have hr' : (r : ℚ) ≤ 255 := by exact_mod_cast Nat.le_of_lt_succ hr
  have hg' : (g : ℚ) ≤ 255 := by exact_mod_cast Nat.le_of_lt_succ hg
  have hb' : (b : ℚ) ≤ 255 := by exact_mod_cast Nat.le_of_lt_succ hb
  linarith

end AnalyzerLemmas

/-- Claim C6: the analyzer is total on buffers whose length is a
multiple of four (including empty), with `transparent_ratio ∈ [0,1]` and
`avg_luma ∈ [0,255]`; a pixel is transparent exactly when its alpha byte
is below 128, `avg_luma` is the mean luminance of the non-transparent
pixels when at least one exists, and is exactly 255 when none exist. -/
theorem analyzer_spec (buf : List Nat) (h4 : buf.length % 4 = 0)
    (hb : ∀ x ∈ buf, x < 256) :
    0 ≤ (analyzeRGBA buf).transparentRatio ∧
    (analyzeRGBA buf).transparentRatio ≤ 1 ∧
    0 ≤ (analyzeRGBA buf).avgLuma ∧
    (analyzeRGBA buf).avgLuma ≤ 255 ∧
    (analyzeRGBA buf).transparentRatio =
      (((pixelsOf buf).filter fun p => decide (p.2.2.2 < 128)).length : ℚ) /
        (if (pixelsOf buf).length = 0 then 1 else ((pixelsOf buf).length : ℚ)) ∧
    (((pixelsOf buf).filter fun p => ! decide (p.2.2.2 < 128)).length ≠ 0 →
      (analyzeRGBA buf).avgLuma =
        ((((pixelsOf buf).filter fun p => ! decide (p.2.2.2 < 128)).map
          fun p => lum p.1 p.2.1 p.2.2.1).sum) /
          (((pixelsOf buf).filter fun p => ! decide (p.2.2.2 < 128)).length : ℚ)) ∧
    (((pixelsOf buf).filter fun p => ! decide (p.2.2.2 < 128)).length = 0 →
      (analyzeRGBA buf).avgLuma = 255) := by
  have heq := analyzeGo_eq buf
  have hplen := pixelsOf_length buf h4
  have hlen4 : ((buf.length : ℚ)) / 4 = ((pixelsOf buf).length : ℚ) := by
    rw [hplen]
    push_cast
    ring
  have hratio : (analyzeRGBA buf).transparentRatio =
      (((pixelsOf buf).filter fun p => decide (p.2.2.2 < 128)).length : ℚ) /
        (if (pixelsOf buf).length = 0 then 1 else ((pixelsOf buf).length : ℚ)) := by
    simp only [analyzeRGBA, heq, hlen4, Nat.cast_eq_zero]
  have havg0 : (((pixelsOf buf).filter fun p => ! decide (p.2.2.2 < 128)).length = 0 →
      (analyzeRGBA buf).avgLuma = 255) := by
    intro h0
    simp only [analyzeRGBA, heq, h0, if_pos]
  have havg1 : (((pixelsOf buf).filter fun p => ! decide (p.2.2.2 < 128)).length ≠ 0 →
      (analyzeRGBA buf).avgLuma =
        ((((pixelsOf buf).filter fun p => ! decide (p.2.2.2 < 128)).map
          fun p => lum p.1 p.2.1 p.2.2.1).sum) /
          (((pixelsOf buf).filter fun p => ! decide (p.2.2.2 < 128)).length : ℚ)) := by
    intro h0
    simp only [analyzeRGBA, heq]
    rw [if_neg h0]
  have hsum_nonneg : 0 ≤ (((pixelsOf buf).filter fun p => ! decide (p.2.2.2 < 128)).map
      fun p => lum p.1 p.2.1 p.2.2.1).sum := by
    refine List.sum_nonneg ?_
    intro q hq
    obtain ⟨p, _, hpq⟩ := List.mem_map.mp hq
    rw [← hpq]
    exact lum_nonneg _ _ _
  have hsum_le : (((pixelsOf buf).filter fun p => ! decide (p.2.2.2 < 128)).map
      fun p => lum p.1 p.2.1 p.2.2.1).sum ≤
        255 * (((pixelsOf buf).filter fun p => ! decide (p.2.2.2 < 128)).length : ℚ) := by
    have h255 := List.sum_le_card_nsmul
      (((pixelsOf buf).filter fun p => ! decide (p.2.2.2 < 128)).map
        fun p => lum p.1 p.2.1 p.2.2.1) 255 ?_
    · rw [List.length_map, nsmul_eq_mul] at h255
      calc (((pixelsOf buf).filter fun p => ! decide (p.2.2.2 < 128)).map
            fun p => lum p.1 p.2.1 p.2.2.1).sum
          ≤ (((pixelsOf buf).filter fun p => ! decide (p.2.2.2 < 128)).length : ℚ) * 255 :=
            h255
        _ = 255 * (((pixelsOf buf).filter fun p => ! decide (p.2.2.2 < 128)).length : ℚ) := by
            ring
    · intro q hq
      obtain ⟨p, hpmem, hpq⟩ := List.mem_map.mp hq
      have hpx := pixelsOf_mem buf p (List.mem_of_mem_filter hpmem)
      rw [← hpq]
      exact lum_le _ _ _ (hb _ hpx.1) (hb _ hpx.2.1) (hb _ hpx.2.2.1)
  refine ⟨?_, ?_, ?_, ?_, hratio, havg1, havg0⟩
  · rw [hratio]
    apply div_nonneg (by positivity)
    split
    · norm_num
    · positivity
  · rw [hratio]
    by_cases h0 : (pixelsOf buf).length = 0
    · have hf : (((pixelsOf buf).filter fun p => decide (p.2.2.2 < 128)).length : ℚ) = 0 := by
        have := List.length_filter_le (fun p => decide (p.2.2.2 < 128)) (pixelsOf buf)
        have : ((pixelsOf buf).filter fun p => decide (p.2.2.2 < 128)).length = 0 := by omega
        simp [this]
      rw [if_pos h0, hf]
      norm_num
    · rw [if_neg h0]
      rw [div_le_one (by positivity)]
      have := List.length_filter_le (fun p => decide (p.2.2.2 < 128)) (pixelsOf buf)
      exact_mod_cast this
  · by_cases h0 : ((pixelsOf buf).filter fun p => ! decide (p.2.2.2 < 128)).length = 0
    · rw [havg0 h0]; norm_num
    · rw [havg1 h0]
      exact div_nonneg hsum_nonneg (by positivity)
  · by_cases h0 : ((pixelsOf buf).filter fun p => ! decide (p.2.2.2 < 128)).length = 0
    · rw [havg0 h0]
    · rw [havg1 h0]
      rw [div_le_iff₀ (by positivity)]
      exact hsum_le

/-- Witness for C6 at a concrete two-pixel buffer. -/
theorem analyzer_spec_witness :
    ([0, 0, 0, 0, 10, 20, 30, 255].length % 4 = 0 ∧
      ∀ x ∈ [0, 0, 0, 0, 10, 20, 30, 255], x < 256) ∧
    (0 ≤ (analyzeRGBA [0, 0, 0, 0, 10, 20, 30, 255]).transparentRatio ∧
      (analyzeRGBA [0, 0, 0, 0, 10, 20, 30, 255]).transparentRatio ≤ 1) :=
  ⟨⟨by decide, by decide⟩,
    ⟨(analyzer_spec [0, 0, 0, 0, 10, 20, 30, 255] (by decide) (by decide)).1,
     (analyzer_spec [0, 0, 0, 0, 10, 20, 30, 255] (by decide) (by decide)).2.1⟩⟩

section WalkLemmas

theorem walkChunksFuel_congr : ∀ (f1 f2 : Nat) (buf : List Nat) (acc : ChunkScan),
    buf.length ≤ f1 → buf.length ≤ f2 →
    walkChunksFuel f1 buf acc = walkChunksFuel f2 buf acc := by
  intro f1
  induction f1 with
  | zero =>
      intro f2 buf acc h1 _
      have hb : buf = [] := List.eq_nil_of_length_eq_zero (by omega)
      subst hb
      cases f2 <;> rfl
  | succ k ih =>
      intro f2 buf acc h1 h2
      cases f2 with
      | zero =>
          have hb : buf = [] := List.eq_nil_of_length_eq_zero (by omega)
          subst hb
          rfl
      | succ m =>
          simp only [walkChunksFuel]
          have hdlen : (buf.drop (12 + u32be (buf.take 4))).length ≤ buf.length - 12 := by
            simp only [List.length_drop]
            omega
          split_ifs <;>
            first
            | rfl
            | exact ih m _ _ (by omega) (by omega)

theorem walkChunks_short (buf : List Nat) (acc : ChunkScan) (h : buf.length < 8) :
    walkChunks buf acc = some acc := by
  unfold walkChunks
  cases hb : buf.length with
  | zero => rfl
  | succ k =>
      simp only [walkChunksFuel]
      rw [if_pos h]

theorem walkChunks_step (buf : List Nat) (acc : ChunkScan)
    (h8 : 8 ≤ buf.length) (hfit : 12 + u32be (buf.take 4) ≤ buf.length) :
    walkChunks buf acc =
      if ((buf.drop 4).take 4).map (· % 128) = tyIHDR then
        if ((buf.drop 8).take (u32be (buf.take 4))).length < 8 then none
        else
          walkChunks (buf.drop (12 + u32be (buf.take 4)))
            { acc with ihdr := some ((buf.drop 8).take (u32be (buf.take 4))) }
      else if ((buf.drop 4).take 4).map (· % 128) = tyPLTE then
        walkChunks (buf.drop (12 + u32be (buf.take 4)))
          { acc with plte := some ((buf.drop 8).take (u32be (buf.take 4))) }
      else if ((buf.drop 4).take 4).map (· % 128) = tyTRNS then
        walkChunks (buf.drop (12 + u32be (buf.take 4)))
          { acc with trns := some ((buf.drop 8).take (u32be (buf.take 4))) }
      else if ((buf.drop 4).take 4).map (· % 128) = tyIDAT then
        walkChunks (buf.drop (12 + u32be (buf.take 4)))
          { acc with idat := acc.idat ++ (buf.drop 8).take (u32be (buf.take 4)) }
      else if ((buf.drop 4).take 4).map (· % 128) = tyIEND then
        some { acc with ended := true }
      else walkChunks (buf.drop (12 + u32be (buf.take 4))) acc := by
  unfold walkChunks
  have hL : buf.length = (buf.length - 1) + 1 := by omega
  rw [hL]
  simp only [walkChunksFuel]
  rw [if_neg (by omega), if_neg (by omega)]
  have hdlen : (buf.drop (12 + u32be (buf.take 4))).length ≤ buf.length - 1 := by
    simp only [List.length_drop]
    omega
  split_ifs <;>
    first
    | rfl
    | exact walkChunksFuel_congr _ _ _ _ hdlen (le_refl _)

end WalkLemmas

section ParseInversion

/-- Inversion of a successful `parsePNG`: the chunk walk succeeded, an
IHDR was recorded, an IEND was reached, the IDAT stream inflated, the
color type was supported, and the row decode produced the pixel data;
width and height come from the recorded IHDR data. -/
theorem parsePNG_inv (buf : List Nat) (img : ParsedPNG)
    (h : parsePNG buf = some img) :
    ∃ scan d raw ch,
      walkChunks (buf.drop 8) initScan = some scan ∧
      scan.ihdr = some d ∧ scan.ended = true ∧
      inflate scan.idat = some raw ∧
      channelsOf (d.getD 9 999) = some ch ∧
      decodeRows (d.getD 9 999) ch (u32be (d.take 4)) scan.plte scan.trns
        (u32be ((d.drop 4).take 4)) raw
        (List.replicate (u32be (d.take 4) * ch) 0) = some img.data ∧
      img.width = u32be (d.take 4) ∧ img.height = u32be ((d.drop 4).take 4) := by
  unfold parsePNG at h
  by_cases hc : buf.length < 8 ∨ buf.take 8 ≠ pngSig
  · rw [if_pos hc] at h; cases h
  · rw [if_neg hc] at h
    cases hw : walkChunks (buf.drop 8) initScan with
    | none => simp only [hw] at h; cases h
    | some scan =>
      simp only [hw] at h
      cases hi : scan.ihdr with
      | none => simp only [hi] at h; cases h
      | some d =>
        simp only [hi] at h
        by_cases he : scan.ended = false
        · rw [if_pos he] at h; cases h
        · rw [if_neg he] at h
          by_cases h10 : d.getD 10 999 ≠ 0 ∨ d.getD 11 999 ≠ 0
          · rw [if_pos h10] at h; cases h
          · rw [if_neg h10] at h
            by_cases h8 : d.getD 8 999 ≠ 8
            · rw [if_pos h8] at h; cases h
            · rw [if_neg h8] at h
              by_cases h12 : d.getD 12 999 ≠ 0
              · rw [if_pos h12] at h; cases h
              · rw [if_neg h12] at h
                cases hinf : inflate scan.idat with
                | none => simp only [hinf] at h; cases h
                | some raw =>
                  simp only [hinf] at h
                  cases hch : channelsOf (d.getD 9 999) with
                  | none => simp only [hch] at h; cases h
                  | some ch =>
                    simp only [hch] at h
                    cases hdec : decodeRows (d.getD 9 999) ch (u32be (d.take 4))
                        scan.plte scan.trns (u32be ((d.drop 4).take 4)) raw
                        (List.replicate (u32be (d.take 4) * ch) 0) with
                    | none => simp only [hdec] at h; cases h
                    | some out =>
                      simp only [hdec] at h
                      cases h
                      refine ⟨scan, d, raw, ch, rfl, hi, ?_, hinf, hch, ?_, rfl, rfl⟩
                      · revert he; cases scan.ended <;> simp
                      · simpa using hdec

theorem channelsOf_inv (ct ch : Nat) (h : channelsOf ct = some ch) :
    ct = 6 ∧ ch = 4 ∨ ct = 2 ∧ ch = 3 ∨ ct = 0 ∧ ch = 1 ∨ ct = 3 ∧ ch = 1 := by
  unfold channelsOf at h
  split at h <;> simp_all

theorem expandPixels_length (ct ch : Nat) (plte trns : Option (List Nat))
    (hch : channelsOf ct = some ch) :
    ∀ (x : Nat) (cur out : List Nat), cur.length = ch * x →
      expandPixels ct plte trns x cur = some out → out.length = 4 * x := by
  have hcc := channelsOf_inv ct ch hch
  intro x
  induction x with
  | zero =>
      intro cur out _ he
      simp only [expandPixels] at he
      cases he
      rfl
  | succ k ih =>
      intro cur out hlen he
      rcases hcc with ⟨h6, hc4⟩ | ⟨h2, hc3⟩ | ⟨h0, hc1⟩ | ⟨h3, hc1⟩ <;> subst_vars
      · simp only [expandPixels] at he
        cases hrec : expandPixels 6 plte trns k (cur.drop 4) with
        | none => simp only [hrec] at he; cases he
        | some rest =>
            simp only [hrec] at he
            cases he
            have hr := ih (cur.drop 4) rest (by simp only [List.length_drop]; omega) hrec
            simp only [List.length_append, List.length_take, hr]
            omega
      · simp only [expandPixels] at he
        cases hrec : expandPixels 2 plte trns k (cur.drop 3) with
        | none => simp only [hrec] at he; cases he
        | some rest =>
            simp only [hrec] at he
            cases he
            have hr := ih (cur.drop 3) rest (by simp only [List.length_drop]; omega) hrec
            simp only [List.length_append, List.length_cons, List.length_nil, hr]
            omega
      · simp only [expandPixels] at he
        cases hrec : expandPixels 0 plte trns k (cur.drop 1) with
        | none => simp only [hrec] at he; cases he
        | some rest =>
            simp only [hrec] at he
            cases he
            have hr := ih (cur.drop 1) rest (by simp only [List.length_drop]; omega) hrec
            simp only [List.length_append, List.length_cons, List.length_nil, hr]
            omega
      · cases plte with
        | none =>
            simp only [expandPixels] at he
            cases he
        | some pal =>
            simp only [expandPixels] at he
            by_cases hpal : pal.length ≤ cur.getD 0 0 * 3 + 2
            · rw [if_pos hpal] at he; cases he
            · rw [if_neg hpal] at he
              cases hrec : expandPixels 3 (some pal) trns k (cur.drop 1) with
              | none => simp only [hrec] at he; cases he
              | some rest =>
                  simp only [hrec] at he
                  cases he
                  have hr := ih (cur.drop 1) rest
                    (by simp only [List.length_drop]; omega) hrec
                  simp only [List.length_append, List.length_cons, List.length_nil, hr]
                  omega

theorem decodeRows_length (ct ch w : Nat) (plte trns : Option (List Nat))
    (hch : channelsOf ct = some ch) :
    ∀ (hh : Nat) (raw prev out : List Nat),
      decodeRows ct ch w plte trns hh raw prev = some out →
      out.length = hh * (4 * w) := by
  intro hh
  induction hh with
  | zero =>
      intro raw prev out he
      simp only [decodeRows] at he
      cases he
      simp
  | succ k ih =>
      intro raw prev out he
      cases raw with
      | nil => simp only [decodeRows] at he; cases he
      | cons ft rest =>
          simp only [decodeRows] at he
          by_cases hb1 : rest.length < w * ch
          · rw [if_pos hb1] at he; cases he
          · rw [if_neg hb1] at he
            by_cases hb2 : 4 < ft
            · rw [if_pos hb2] at he; cases he
            · rw [if_neg hb2] at he
              cases hexp : expandPixels ct plte trns w
                  (unfilterRow ft ch prev (rest.take (w * ch))) with
              | none => simp only [hexp] at he; cases he
              | some rowRGBA =>
                  simp only [hexp] at he
                  cases hrec : decodeRows ct ch w plte trns k (rest.drop (w * ch))
                      (unfilterRow ft ch prev (rest.take (w * ch))) with
                  | none => simp only [hrec] at he; cases he
                  | some more =>
                      simp only [hrec] at he
                      cases he
                      have h1 : rowRGBA.length = 4 * w := by
                        refine expandPixels_length ct ch plte trns hch w _ _ ?_ hexp
                        rw [unfilterRow_length, List.length_take, Nat.mul_comm ch w]
                        omega
                      have h2 := ih _ _ _ hrec
                      simp only [List.length_append, h1, h2, Nat.succ_mul]
                      omega

end ParseInversion

/-- Chunk framing with a zeroed CRC field, used to build concrete test
streams; the decoder reads but never validates chunk CRCs, so these
decode exactly like CRC-correct chunks. -/
def chunkZeroCRC (ty data : List Nat) : List Nat :=
  u32beBytes data.length ++ ty ++ data ++ [0, 0, 0, 0]

/-- A stream with a valid signature whose first chunk is `sBIT`, not
IHDR; the IHDR (grayscale 1×1) comes second. -/
def pngIhdrSecond : List Nat :=
  pngSig ++ chunkZeroCRC [115, 66, 73, 84] [] ++
    chunkZeroCRC tyIHDR (u32beBytes 1 ++ u32beBytes 1 ++ [8, 0, 0, 0, 0]) ++
    chunkZeroCRC tyIDAT (deflate [0, 7]) ++ chunkZeroCRC tyIEND []

/-- A stream whose IHDR declares width 0 (grayscale, height 1). -/
def pngWidthZero : List Nat :=
  pngSig ++ chunkZeroCRC tyIHDR (u32beBytes 0 ++ u32beBytes 1 ++ [8, 0, 0, 0, 0]) ++
    chunkZeroCRC tyIDAT (deflate [0]) ++ chunkZeroCRC tyIEND []

/-- Counterexample to claim C8: a stream with a valid PNG signature
whose first chunk after the signature is not IHDR still decodes
successfully (the walker keeps the last IHDR seen wherever it occurs),
contradicting "fails unless ... IHDR is the first chunk". -/
theorem ihdr_not_first_cex :
    pngIhdrSecond.take 8 = pngSig ∧
    (pngIhdrSecond.drop 12).take 4 ≠ tyIHDR ∧
    parsePNG pngIhdrSecond = some ⟨1, 1, [7, 7, 7, 255]⟩ := by decide

/-- Claim C8 (amended): for every input, a successful decode implies the
chunk walk succeeded and recorded some IHDR chunk and reached an IEND;
the decoder does not require the IHDR to be the first chunk, nor unique
(the last IHDR before IEND is the one used). -/
theorem decode_needs_ihdr_iend (buf : List Nat) (img : ParsedPNG)
    (h : parsePNG buf = some img) :
    (walkChunks (buf.drop 8) initScan).isSome ∧
    ((walkChunks (buf.drop 8) initScan).getD initScan).ihdr.isSome ∧
    ((walkChunks (buf.drop 8) initScan).getD initScan).ended = true := by
  obtain ⟨scan, d, raw, ch, hw, hi, he, _⟩ := parsePNG_inv buf img h
  rw [hw]
  exact ⟨rfl, by simp [Option.getD, hi], by simp [Option.getD, he]⟩

/-- Witness for the amended C8 at the IHDR-second stream. -/
theorem decode_needs_ihdr_iend_witness :
    parsePNG pngIhdrSecond = some ⟨1, 1, [7, 7, 7, 255]⟩ ∧
    ((walkChunks (pngIhdrSecond.drop 8) initScan).isSome ∧
      ((walkChunks (pngIhdrSecond.drop 8) initScan).getD initScan).ihdr.isSome ∧
      ((walkChunks (pngIhdrSecond.drop 8) initScan).getD initScan).ended = true) :=
  ⟨by decide, decode_needs_ihdr_iend pngIhdrSecond ⟨1, 1, [7, 7, 7, 255]⟩ (by decide)⟩

/-- Counterexample to claim C9: an input whose IHDR declares width = 0
decodes successfully (to an empty pixel buffer) instead of failing — the
decoder never validates width or height positivity. -/
theorem width_zero_cex :
    u32be ((pngWidthZero.drop 16).take 4) = 0 ∧
    parsePNG pngWidthZero = some ⟨0, 1, []⟩ := by decide

/-- Claim C9 (amended): the decoder does not validate `width > 0` or
`height > 0`; an IHDR declaring zero dimensions can decode successfully,
and every successful decode still returns a buffer of exactly
`width * height * 4` bytes (an empty buffer for zero dimensions). -/
theorem parsePNG_output_length (buf : List Nat) (img : ParsedPNG)
    (h : parsePNG buf = some img) :
    img.data.length = img.width * img.height * 4 := by
  obtain ⟨scan, d, raw, ch, hw, hi, he, hinf, hch, hdec, hwid, hhei⟩ :=
    parsePNG_inv buf img h
  have hl := decodeRows_length _ ch _ scan.plte scan.trns hch _ raw _ img.data hdec
  rw [hl, hwid, hhei]
  ring

/-- Witness for the amended C9 at the width-zero stream. -/
theorem parsePNG_output_length_witness :
    parsePNG pngWidthZero = some ⟨0, 1, []⟩ ∧
    ([] : List Nat).length = 0 * 1 * 4 :=
  ⟨by decide, parsePNG_output_length pngWidthZero ⟨0, 1, []⟩ (by decide)⟩

section RoundTrip

theorem ihdrData_length (w h : Nat) : (ihdrData w h).length = 13 := by
  simp [ihdrData, u32beBytes]

theorem buildRaw_length (w : Nat) : ∀ (h : Nat) (l : List Nat),
    (buildRaw w h l).length = h * (1 + 4 * w) := by
  intro h
  induction h with
  | zero => intro l; simp [buildRaw]
  | succ k ih =>
      intro l
      simp only [buildRaw, List.length_append, List.length_cons, ih, padTo,
        List.length_take, List.length_replicate, Nat.succ_mul]
      omega

theorem walkChunks_chunk (ty data crcb rest : List Nat) (acc : ChunkScan)
    (hty : ty.length = 4) (htyb : ∀ b ∈ ty, b < 128) (hcrc : crcb.length = 4)
    (hlen : data.length < 4294967296) :
    walkChunks (u32beBytes data.length ++ (ty ++ (data ++ (crcb ++ rest)))) acc =
      if ty = tyIHDR then
        if data.length < 8 then none
        else walkChunks rest { acc with ihdr := some data }
      else if ty = tyPLTE then walkChunks rest { acc with plte := some data }
      else if ty = tyTRNS then walkChunks rest { acc with trns := some data }
      else if ty = tyIDAT then walkChunks rest { acc with idat := acc.idat ++ data }
      else if ty = tyIEND then some { acc with ended := true }
      else walkChunks rest acc := by
  set buf := u32beBytes data.length ++ (ty ++ (data ++ (crcb ++ rest))) with hbuf
  have hblen : buf.length = 12 + data.length + rest.length := by
    simp only [hbuf, List.length_append, u32beBytes_length, hty, hcrc]
    omega
  have htake : buf.take 4 = u32beBytes data.length :=
    List.take_left' (u32beBytes_length data.length)
  have hu : u32be (buf.take 4) = data.length := by
    rw [htake, u32be_u32beBytes _ hlen]
  have hdrop4 : buf.drop 4 = ty ++ (data ++ (crcb ++ rest)) :=
    List.drop_left' (u32beBytes_length data.length)
  have htym : ((buf.drop 4).take 4).map (· % 128) = ty := by
    rw [hdrop4, List.take_left' hty]
    exact mask_eq_self htyb
  have hdrop8 : buf.drop 8 = data ++ (crcb ++ rest) := by
    rw [show (8 : Nat) = 4 + 4 by rfl, ← List.drop_drop, hdrop4, List.drop_left' hty]
  have hdata : (buf.drop 8).take data.length = data := by
    rw [hdrop8]
    exact List.take_left' rfl
  have hrest : buf.drop (12 + data.length) = rest := by
    rw [show 12 + data.length = 8 + (data.length + 4) by omega,
      ← List.drop_drop (data.length + 4) 8 buf, hdrop8,
      List.drop_append_eq_append_drop, List.drop_eq_nil_of_le (by omega),
      Nat.add_sub_cancel_left, List.nil_append, List.drop_left' hcrc]
  rw [walkChunks_step buf acc (by omega) (by rw [hu]; omega)]
  rw [hu, htym, hdata, hrest]

theorem expandPixels6_id (plte trns : Option (List Nat)) :
    ∀ (x : Nat) (cur : List Nat), cur.length = 4 * x →
      expandPixels 6 plte trns x cur = some cur := by
  intro x
  induction x with
  | zero =>
      intro cur h
      have : cur = [] := List.eq_nil_of_length_eq_zero (by omega)
      subst this
      rfl
  | succ k ih =>
      intro cur h
      simp only [expandPixels]
      simp only [ih (cur.drop 4) (by simp only [List.length_drop]; omega)]
      rw [List.take_append_drop]

theorem decodeRows_buildRaw (w : Nat) (plte trns : Option (List Nat)) :
    ∀ (h : Nat) (rgba prev : List Nat), rgba.length = w * h * 4 →
      (∀ b ∈ rgba, b < 256) →
      decodeRows 6 4 w plte trns h (buildRaw w h rgba) prev = some rgba := by
  intro h
  induction h with
  | zero =>
      intro rgba prev hlen _
      have : rgba = [] := List.eq_nil_of_length_eq_zero (by omega)
      subst this
      rfl
  | succ k ih =>
      intro rgba prev hlen hbytes
      have hsplit : w * (k + 1) * 4 = w * k * 4 + 4 * w := by ring
      have hlen' : (rgba.take (4 * w)).length = 4 * w := by
        rw [List.length_take]
        omega
      have hpt : padTo (4 * w) (rgba.take (4 * w)) = rgba.take (4 * w) := by
        unfold padTo
        rw [hlen']
        simp
      have hcomm : w * 4 = 4 * w := by ring
      show decodeRows 6 4 w plte trns (k + 1)
        ((0 :: padTo (4 * w) (rgba.take (4 * w))) ++ buildRaw w k (rgba.drop (4 * w)))
        prev = some rgba
      rw [hpt, List.cons_append]
      simp only [decodeRows]
      rw [if_neg (by
        simp only [List.length_append, hlen', buildRaw_length]
        omega)]
      rw [if_neg (by omega)]
      rw [List.take_left' (by rw [hlen']; try ring), List.drop_left' (by rw [hlen']; try ring)]
      have hunf : unfilterRow 0 4 prev (rgba.take (4 * w)) = rgba.take (4 * w) := by
        unfold unfilterRow
        rw [if_pos rfl]
        exact mask_eq_self fun b hb => hbytes b (List.take_subset _ _ hb)
      rw [hunf]
      simp only [expandPixels6_id plte trns w (rgba.take (4 * w)) (by rw [hlen']; try ring)]
      simp only [ih (rgba.drop (4 * w)) (rgba.take (4 * w))
        (by simp only [List.length_drop]; omega)
        (fun b hb => hbytes b (List.drop_subset _ _ hb))]
      rw [List.take_append_drop]

end RoundTrip

/-- Claim C2: round-trip — for every RGBA buffer of length
`width*height*4` with positive dimensions, byte-valued entries, and a
raw scanline stream that fits the 32-bit chunk-length field (the
source's `writeUInt32BE` would throw beyond that, and dimensions are
u32 per the PNG format), decoding the Encoder's output succeeds and
reproduces the same width, the same height, and a byte-for-byte
identical RGBA buffer. -/
theorem encode_decode_roundtrip (rgba : List Nat) (w h : Nat)
    (hw : 0 < w) (hh : 0 < h) (hlen : rgba.length = w * h * 4)
    (hbytes : ∀ b ∈ rgba, b < 256)
    (hsize : h * (1 + 4 * w) + 2 < 4294967296) :
    parsePNG (encodePNG rgba w h) = some ⟨w, h, rgba⟩ := by
  have hw32 : w < 4294967296 := by
    have h1 : 1 + 4 * w ≤ h * (1 + 4 * w) := Nat.le_mul_of_pos_left _ hh
    omega
  have hh32 : h < 4294967296 := by
    have h1 : h * 1 ≤ h * (1 + 4 * w) := Nat.mul_le_mul (le_refl h) (by omega)
    omega
  have hidatlen : (deflate (buildRaw w h rgba)).length = h * (1 + 4 * w) + 2 := by
    simp [deflate, buildRaw_length]
  have hg8 : (ihdrData w h).getD 8 999 = 8 := by simp [ihdrData, u32beBytes]
  have hg9 : (ihdrData w h).getD 9 999 = 6 := by simp [ihdrData, u32beBytes]
  have hg10 : (ihdrData w h).getD 10 999 = 0 := by simp [ihdrData, u32beBytes]
  have hg11 : (ihdrData w h).getD 11 999 = 0 := by simp [ihdrData, u32beBytes]
  have hg12 : (ihdrData w h).getD 12 999 = 0 := by simp [ihdrData, u32beBytes]
  have htkw : u32be ((ihdrData w h).take 4) = w := by
    unfold ihdrData
    rw [List.append_assoc, List.take_left' (u32beBytes_length w)]
    exact u32be_u32beBytes w hw32
  have htkh : u32be (((ihdrData w h).drop 4).take 4) = h := by
    unfold ihdrData
    rw [List.append_assoc, List.drop_left' (u32beBytes_length w),
      List.take_left' (u32beBytes_length h)]
    exact u32be_u32beBytes h hh32
  have hdrop8 : (encodePNG rgba w h).drop 8 =
      makeChunk tyIHDR (ihdrData w h) ++
        (makeChunk tyIDAT (deflate (buildRaw w h rgba)) ++ makeChunk tyIEND []) := by
    simp only [encodePNG, List.append_assoc]
    exact List.drop_left' rfl
  have hwalk : walkChunks (makeChunk tyIHDR (ihdrData w h) ++
      (makeChunk tyIDAT (deflate (buildRaw w h rgba)) ++ makeChunk tyIEND [])) initScan =
      some ⟨some (ihdrData w h), none, none, deflate (buildRaw w h rgba), true⟩ := by
    simp only [makeChunk, List.append_assoc]
    rw [walkChunks_chunk tyIHDR (ihdrData w h) _ _ initScan rfl (by decide)
      (u32beBytes_length _) (by rw [ihdrData_length]; omega)]
    rw [if_pos rfl, if_neg (by rw [ihdrData_length]; omega)]
    rw [walkChunks_chunk tyIDAT (deflate (buildRaw w h rgba)) _ _ _ rfl (by decide)
      (u32beBytes_length _) (by rw [hidatlen]; omega)]
    rw [if_neg (by decide), if_neg (by decide), if_neg (by decide), if_pos rfl]
    rw [(List.append_nil (u32beBytes (crc32 (tyIEND ++ ([] : List Nat))))).symm]
    rw [walkChunks_chunk tyIEND [] (u32beBytes (crc32 (tyIEND ++ ([] : List Nat)))) [] _
      rfl (by decide) (u32beBytes_length _) (by decide)]
    rw [if_neg (by decide), if_neg (by decide), if_neg (by decide), if_neg (by decide),
      if_pos rfl]
    simp [initScan]
  have hsig : ¬((encodePNG rgba w h).length < 8 ∨
      (encodePNG rgba w h).take 8 ≠ pngSig) := by
    push_neg
    constructor
    · simp only [encodePNG, List.length_append]
      have : pngSig.length = 8 := rfl
      omega
    · simp only [encodePNG, List.append_assoc]
      exact List.take_left' rfl
  unfold parsePNG
  rw [if_neg hsig]
  simp only [hdrop8, hwalk]
  rw [if_neg (by simp), if_neg (by rw [hg10, hg11]; simp), if_neg (by rw [hg8]; simp),
    if_neg (by rw [hg12]; simp)]
  simp only [inflate_deflate, hg9, channelsOf, htkw, htkh]
  simp only [decodeRows_buildRaw w none none h rgba (List.replicate (w * 4) 0)
    hlen hbytes]

/-- Witness for C2 at a concrete 1×1 image. -/
theorem encode_decode_roundtrip_witness :
    (0 < 1 ∧ [1, 2, 3, 4].length = 1 * 1 * 4 ∧ (∀ b ∈ [1, 2, 3, 4], b < 256) ∧
      1 * (1 + 4 * 1) + 2 < 4294967296) ∧
    parsePNG (encodePNG [1, 2, 3, 4] 1 1) = some ⟨1, 1, [1, 2, 3, 4]⟩ :=
  ⟨⟨by decide, by decide, by decide, by decide⟩,
    encode_decode_roundtrip [1, 2, 3, 4] 1 1 (by decide) (by decide) (by decide)
      (by decide) (by decide)⟩

section PipelineBranch

/-- The flatten branch of the processing step: on a successful decode
with transparent ratio at or above the inclusive 0.5 threshold, the
pipeline returns the re-encoded flatten of the decoded buffer, with the
background chosen by the luminance test. -/
theorem process_flatten_branch (bytes : List Nat) (img : ParsedPNG)
    (hp : parsePNG bytes = some img)
    (hr : (1 : ℚ) / 2 ≤ (analyzeRGBA img.data).transparentRatio) :
    process bytes "image/png" =
      (encodePNG (flattenRGBA img.data img.width img.height
        (if (analyzeRGBA img.data).avgLuma < 128 then "#ffffff" else "#1f1f1f"))
        img.width img.height, "image/png") := by
  unfold process
  rw [if_pos rfl]
  simp only [hp]
  rw [if_pos hr]

/-- The pass-through branch of the processing step: on a successful
decode with transparent ratio strictly below 0.5, the original bytes and
media type are returned unchanged. -/
theorem process_pass_branch (bytes : List Nat) (img : ParsedPNG)
    (hp : parsePNG bytes = some img)
    (hr : (analyzeRGBA img.data).transparentRatio < (1 : ℚ) / 2) :
    process bytes "image/png" = (bytes, "image/png") := by
  unfold process
  rw [if_pos rfl]
  simp only [hp]
  rw [if_neg (not_le.mpr hr)]

end PipelineBranch

/-- Claim C4: the flatten threshold is inclusive — for every decoded
PNG, the pipeline flattens exactly when `transparent_ratio ≥ 0.5`
(including equality), and passes through unchanged when the ratio is
below 0.5. -/
theorem process_threshold (bytes : List Nat) (img : ParsedPNG)
    (hp : parsePNG bytes = some img) :
    ((1 : ℚ) / 2 ≤ (analyzeRGBA img.data).transparentRatio →
      process bytes "image/png" =
        (encodePNG (flattenRGBA img.data img.width img.height
          (if (analyzeRGBA img.data).avgLuma < 128 then "#ffffff" else "#1f1f1f"))
          img.width img.height, "image/png")) ∧
    ((analyzeRGBA img.data).transparentRatio < (1 : ℚ) / 2 →
      process bytes "image/png" = (bytes, "image/png")) :=
  ⟨process_flatten_branch bytes img hp, process_pass_branch bytes img hp⟩

/-- A 2×2 RGBA test image with exactly two transparent and two opaque
dark-gray pixels: transparent ratio exactly 0.5. -/
def c4px : List Nat := [9, 9, 9, 0, 9, 9, 9, 255, 9, 9, 9, 255, 9, 9, 9, 0]

/-- Raw scanlines (filter byte 0 per row) for `c4px`. -/
def c4raw : List Nat :=
  [0, 9, 9, 9, 0, 9, 9, 9, 255, 0, 9, 9, 9, 255, 9, 9, 9, 0]

/-- A decodable PNG stream for `c4px`. -/
def c4png : List Nat :=
  pngSig ++ chunkZeroCRC tyIHDR (ihdrData 2 2) ++
    chunkZeroCRC tyIDAT (deflate c4raw) ++ chunkZeroCRC tyIEND []

/-- Witness for C4 at a ratio-exactly-0.5 image: it flattens. -/
theorem process_threshold_witness :
    parsePNG c4png = some ⟨2, 2, c4px⟩ ∧
    (1 : ℚ) / 2 ≤ (analyzeRGBA c4px).transparentRatio ∧
    process c4png "image/png" =
      (encodePNG (flattenRGBA c4px 2 2
        (if (analyzeRGBA c4px).avgLuma < 128 then "#ffffff" else "#1f1f1f")) 2 2,
        "image/png") := by
  have hp : parsePNG c4png = some ⟨2, 2, c4px⟩ := by decide
  have hana : analyzeRGBA c4px = ⟨1 / 2, 9⟩ := by
    simp [analyzeRGBA, analyzeGo, lum, c4px, AnalysisResult.mk.injEq]
    norm_num
  have hr : (1 : ℚ) / 2 ≤ (analyzeRGBA c4px).transparentRatio := by
    rw [hana]
  exact ⟨hp, hr, (process_threshold c4png ⟨2, 2, c4px⟩ hp).1 hr⟩

/-- The 2×2 RGBA buffer of spec scenario 3: pixels (row-major)
transparent, opaque black, opaque black, transparent. -/
def px2x2 : List Nat := [0, 0, 0, 0, 0, 0, 0, 255, 0, 0, 0, 255, 0, 0, 0, 0]

/-- Raw scanlines (filter byte 0 per row) for `px2x2`. -/
def raw2x2 : List Nat :=
  [0, 0, 0, 0, 0, 0, 0, 0, 255, 0, 0, 0, 0, 255, 0, 0, 0, 0]

/-- A decodable PNG stream for `px2x2`. -/
def png2x2 : List Nat :=
  pngSig ++ chunkZeroCRC tyIHDR (ihdrData 2 2) ++
    chunkZeroCRC tyIDAT (deflate raw2x2) ++ chunkZeroCRC tyIEND []

/-- Counterexample to claim C3: on the 2×2 two-transparent/two-black
image the analyzer does yield ratio 1/2 and luma 0 and the pipeline
flattens over white, but the primary (scale-to-80%-and-center)
compositor repositions the image: the originally-opaque black pixel at
bytes 4–7 has red byte 255 (background white) in the flattened output,
not black as the claim requires. -/
theorem scenario2x2_scaled_cex :
    parsePNG png2x2 = some ⟨2, 2, px2x2⟩ ∧
    analyzeRGBA px2x2 = ⟨1 / 2, 0⟩ ∧
    process png2x2 "image/png" =
      (encodePNG (flattenRGBA px2x2 2 2 "#ffffff") 2 2, "image/png") ∧
    px2x2.getD 4 0 = 0 ∧ px2x2.getD 7 0 = 255 ∧
    (flattenRGBA px2x2 2 2 "#ffffff").getD 4 0 = 255 := by
  have hp : parsePNG png2x2 = some ⟨2, 2, px2x2⟩ := by decide
  have hana : analyzeRGBA px2x2 = ⟨1 / 2, 0⟩ := by
    simp [analyzeRGBA, analyzeGo, lum, px2x2, AnalysisResult.mk.injEq]
    norm_num
  have hproc := process_flatten_branch png2x2 ⟨2, 2, px2x2⟩ hp (by rw [hana])
  rw [hana] at hproc
  rw [if_pos (by norm_num)] at hproc
  exact ⟨hp, hana, hproc, by decide, by decide, by decide⟩

/-- Claim C3 (amended): the scenario holds as stated under the
full-bleed compositor variant (second implementation): analyzer yields
ratio 1/2 and average luma 0, the dark-luma branch selects the light
background, and the output is fully opaque with the two originally
opaque black pixels unchanged and the two originally transparent pixels
equal to the background color.  Under the primary scaled-and-centered
pipeline only the analyzer values, the light-background choice and full
opacity hold; pixel positions are not preserved. -/
theorem scenario2x2_full_bleed :
    parsePNG png2x2 = some ⟨2, 2, px2x2⟩ ∧
    analyzeRGBA px2x2 = ⟨1 / 2, 0⟩ ∧
    (analyzeRGBA px2x2).avgLuma < 128 ∧
    flattenRGBAFull px2x2 "#ffffff" =
      [255, 255, 255, 255, 0, 0, 0, 255, 0, 0, 0, 255, 255, 255, 255, 255] := by
  have hana : analyzeRGBA px2x2 = ⟨1 / 2, 0⟩ := by
    simp [analyzeRGBA, analyzeGo, lum, px2x2, AnalysisResult.mk.injEq]
    norm_num
  refine ⟨by decide, hana, ?_, by decide⟩
  rw [hana]
  norm_num

section CrcIndependence

/-- Two byte streams that decompose into the same chunk frames and
differ at most in the 4-byte trailing CRC fields.  `pre` is a chunk's
length field, type and data (its length field describing its own data
length), `c1`/`c2` are the two 4-byte CRC fields; the remainders must be
similarly related.  `same` covers identical tails (including trailing
bytes that are not complete chunks). -/
inductive CrcSimilar : List Nat → List Nat → Prop
  | same (s : List Nat) : CrcSimilar s s
  | chunk (pre c1 c2 r1 r2 : List Nat)
      (hpre : pre.length = 8 + u32be (pre.take 4))
      (hc1 : c1.length = 4) (hc2 : c2.length = 4)
      (htail : CrcSimilar r1 r2) :
      CrcSimilar (pre ++ c1 ++ r1) (pre ++ c2 ++ r2)

theorem CrcSimilar.length_eq {s t : List Nat} (h : CrcSimilar s t) :
    s.length = t.length := by
  induction h with
  | same s => rfl
  | chunk pre c1 c2 r1 r2 hpre hc1 hc2 htail ih =>
      simp only [List.length_append, hc1, hc2, ih]

theorem walkChunks_crcSimilar {s t : List Nat} (h : CrcSimilar s t) :
    ∀ acc, walkChunks s acc = walkChunks t acc := by
  induction h with
  | same s => intro acc; rfl
  | chunk pre c1 c2 r1 r2 hpre hc1 hc2 htail ih =>
      intro acc
      have hlr : r1.length = r2.length := htail.length_eq
      have hlen1 : ((pre ++ c1) ++ r1).length = pre.length + 4 + r1.length := by
        simp [hc1]
        omega
      have hlen2 : ((pre ++ c2) ++ r2).length = pre.length + 4 + r2.length := by
        simp [hc2]
        omega
      have htk1 : ((pre ++ c1) ++ r1).take 4 = pre.take 4 := by
        rw [List.take_append_of_le_length (by simp; omega),
          List.take_append_of_le_length (by omega)]
      have htk2 : ((pre ++ c2) ++ r2).take 4 = pre.take 4 := by
        rw [List.take_append_of_le_length (by simp; omega),
          List.take_append_of_le_length (by omega)]
      have hd41 : ((pre ++ c1) ++ r1).drop 4 = pre.drop 4 ++ c1 ++ r1 := by
        rw [List.drop_append_of_le_length (by simp; omega),
          List.drop_append_of_le_length (by omega)]
      have hd42 : ((pre ++ c2) ++ r2).drop 4 = pre.drop 4 ++ c2 ++ r2 := by
        rw [List.drop_append_of_le_length (by simp; omega),
          List.drop_append_of_le_length (by omega)]
      have hty1 : (((pre ++ c1) ++ r1).drop 4).take 4 = (pre.drop 4).take 4 := by
        rw [hd41, List.take_append_of_le_length (by simp; omega),
          List.take_append_of_le_length (by simp; omega)]
      have hty2 : (((pre ++ c2) ++ r2).drop 4).take 4 = (pre.drop 4).take 4 := by
        rw [hd42, List.take_append_of_le_length (by simp; omega),
          List.take_append_of_le_length (by simp; omega)]
      have hd81 : ((pre ++ c1) ++ r1).drop 8 = pre.drop 8 ++ c1 ++ r1 := by
        rw [List.drop_append_of_le_length (by simp; omega),
          List.drop_append_of_le_length (by omega)]
      have hd82 : ((pre ++ c2) ++ r2).drop 8 = pre.drop 8 ++ c2 ++ r2 := by
        rw [List.drop_append_of_le_length (by simp; omega),
          List.drop_append_of_le_length (by omega)]
      have hdata1 : (((pre ++ c1) ++ r1).drop 8).take (u32be (pre.take 4)) = pre.drop 8 := by
        rw [hd81, List.take_append_of_le_length (by simp; omega),
          List.take_append_of_le_length (by simp; omega), List.take_of_length_le
            (by simp; omega)]
      have hdata2 : (((pre ++ c2) ++ r2).drop 8).take (u32be (pre.take 4)) = pre.drop 8 := by
        rw [hd82, List.take_append_of_le_length (by simp; omega),
          List.take_append_of_le_length (by simp; omega), List.take_of_length_le
            (by simp; omega)]
      have hrest1 : ((pre ++ c1) ++ r1).drop (12 + u32be (pre.take 4)) = r1 :=
        List.drop_left' (by simp [hc1]; omega)
      have hrest2 : ((pre ++ c2) ++ r2).drop (12 + u32be (pre.take 4)) = r2 :=
        List.drop_left' (by simp [hc2]; omega)
      rw [walkChunks_step ((pre ++ c1) ++ r1) acc (by omega) (by rw [htk1]; omega),
        walkChunks_step ((pre ++ c2) ++ r2) acc (by omega) (by rw [htk2]; omega)]
      rw [htk1, htk2, hty1, hty2, hdata1, hdata2, hrest1, hrest2]
      split_ifs <;> first | rfl | exact ih _

end CrcIndependence

/-- Claim C10: CRC noninterference — two input streams identical except
in the 4-byte trailing CRC fields of their chunks (same signature bytes,
chunk frames related by `CrcSimilar`) decode to identical results: the
decoder reads but never validates input chunk CRCs. -/
theorem parsePNG_crc_independent (b1 b2 : List Nat)
    (hsig : b1.take 8 = b2.take 8)
    (hsim : CrcSimilar (b1.drop 8) (b2.drop 8)) :
    parsePNG b1 = parsePNG b2 := by
  have h1 := hsim.length_eq
  have h2 : (b1.take 8).length = (b2.take 8).length := by rw [hsig]
  simp only [List.length_take, List.length_drop] at h1 h2
  have hlen : b1.length = b2.length := by omega
  have hwalk := walkChunks_crcSimilar hsim initScan
  unfold parsePNG
  rw [hsig, hlen, hwalk]

/-- Length field, type and data of a 1×1 grayscale IHDR chunk (the
`pre` part of a `CrcSimilar.chunk`). -/
def crcPre : List Nat :=
  u32beBytes 13 ++ tyIHDR ++ (u32beBytes 1 ++ u32beBytes 1 ++ [8, 0, 0, 0, 0])

/-- Common remainder after the IHDR chunk: IDAT and IEND chunks. -/
def crcTail : List Nat := chunkZeroCRC tyIDAT (deflate [0, 7]) ++ chunkZeroCRC tyIEND []

/-- Two complete streams differing only in the IHDR chunk's CRC field. -/
def pngCrcA : List Nat := pngSig ++ (crcPre ++ [0, 0, 0, 0] ++ crcTail)

def pngCrcB : List Nat := pngSig ++ (crcPre ++ [9, 9, 9, 9] ++ crcTail)

/-- Witness for C10: the two streams differ, yet decode identically
(both successfully, to the same image). -/
theorem parsePNG_crc_independent_witness :
    pngCrcA ≠ pngCrcB ∧
    parsePNG pngCrcA = some ⟨1, 1, [7, 7, 7, 255]⟩ ∧
    parsePNG pngCrcA = parsePNG pngCrcB :=
  ⟨by decide, by decide,
    parsePNG_crc_independent pngCrcA pngCrcB (by decide) (by
      rw [(by decide : pngCrcA.drop 8 = crcPre ++ [0, 0, 0, 0] ++ crcTail),
        (by decide : pngCrcB.drop 8 = crcPre ++ [9, 9, 9, 9] ++ crcTail)]
      exact CrcSimilar.chunk crcPre [0, 0, 0, 0] [9, 9, 9, 9] crcTail crcTail
        (by decide) (by decide) (by decide) (CrcSimilar.same crcTail))⟩

end Favfetch
